import Mathlib

/-!
# Verification of the lc0 MCTS search core

Shallow embedding of the search controller, search worker, engine
controller and streaming network backend of the lc0 chess engine
(files `src/mcts/search.cc`, `src/engine.cc`,
`src/neural/network_stream.cc`, `src/neural/blas/blas.h`), together
with proofs about the embedded operations.

Machine integers are modelled as unbounded `Int`/`Nat`; fractional
quantities (Q, P, scores, times) as `ℚ`.  Code that is not part of the
sources (node statistics accessors from `mcts/node.cc`, the board
library) is modelled from the specification and marked as such in its
doc comment.
-/

namespace Lc0

/-- Truncating division, the semantics of C++ `/` on integers. -/
def cppDiv (a b : Int) : Int := Int.tdiv a b

/-- `std::numeric_limits<int>::max()`. -/
def intMax : Int := 2147483647

/-- `SearchLimits` as populated by `EngineController::PopulateSearchLimits`
and consumed by `Search` (`src/mcts/search.h` shape, fields as used in
`search.cc`).  Moves in `searchmoves` are abstract identifiers. -/
structure SearchLimits where
  visits : Int
  playouts : Int
  time_ms : Int
  infinite : Bool
  searchmoves : List Nat
deriving DecidableEq, Repr

/-- `kSmartPruningToleranceNodes` from `search.cc`. -/
def kSmartPruningToleranceNodes : Int := 100

/-- `kSmartPruningToleranceMs` from `search.cc`. -/
def kSmartPruningToleranceMs : Int := 200

/-- Embedding of `Search::UpdateRemainingMoves` (`src/mcts/search.cc`).
Takes the configuration (`kSmartPruning`, `kMiniBatchSize`), the limits,
the current elapsed time `timeSinceStart` (ms), the counters
`totalPlayouts` and `initialVisits`, and the previous value of
`remaining_playouts_`; returns the new `remaining_playouts_`. -/
def updateRemainingMoves (kSmartPruning : Bool) (kMiniBatchSize : Int)
    (limits : SearchLimits) (timeSinceStart : Int) (totalPlayouts : Int)
    (initialVisits : Int) (remainingPrev : Int) : Int :=
  if kSmartPruning = false then remainingPrev
  else
    let r0 : Int := intMax
    let r1 : Int :=
      if limits.time_ms ≥ 0 ∧ timeSinceStart > kSmartPruningToleranceMs then
        let nps := cppDiv (1000 * totalPlayouts + kSmartPruningToleranceNodes)
                     (timeSinceStart - kSmartPruningToleranceMs) + 1
        let remainingTime := limits.time_ms - timeSinceStart
        let remainingPlayouts := cppDiv (remainingTime * nps) 1000
        if remainingPlayouts < r0 then remainingPlayouts else r0
      else r0
    let r2 : Int :=
      if limits.visits ≥ 0 then
        let remainingVisits :=
          limits.visits - totalPlayouts - initialVisits + kMiniBatchSize - 1
        if remainingVisits < r1 then remainingVisits else r1
      else r1
    let r3 : Int :=
      if limits.playouts ≥ 0 then
        let remainingPlayouts :=
          limits.visits - totalPlayouts + kMiniBatchSize + 1
        if remainingPlayouts < r2 then remainingPlayouts else r2
      else r2
    if r3 ≤ 1 then 1 else r3

/-- The playouts-based smart-pruning bound as the specification states it:
`playouts_limit − total_playouts + minibatch_size + 1`. -/
def playoutsBoundSpec (kMiniBatchSize : Int) (limits : SearchLimits)
    (totalPlayouts : Int) : Int :=
  limits.playouts - totalPlayouts + kMiniBatchSize + 1

/-! ## Stop decision and best-move emission
(`Search::MaybeTriggerStop`, `Search::Stop`, `Search::Abort`). -/

/-- The counters of `Search` guarded by `counters_mutex_` that
`MaybeTriggerStop`, `Stop` and `Abort` read and write
(`src/mcts/search.cc`).  `bestMoveNode` records whether the
`best_move_node_` pointer is non-null. -/
structure SState where
  stop : Bool
  respondedBestmove : Bool
  foundBestMove : Bool
  totalPlayouts : Int
  initialVisits : Int
  bestMoveNode : Bool
deriving DecidableEq, Repr

/-- The value of `stop_` after the four stop checks of
`Search::MaybeTriggerStop` have run (found-best-move, playouts limit,
visits limit, time limit, in source order). -/
def newStopFlag (limits : SearchLimits) (elapsed : Int) (s : SState) : Bool :=
  let stop1 := if s.foundBestMove then true else s.stop
  let stop2 :=
    if limits.playouts ≥ 0 ∧ s.totalPlayouts ≥ limits.playouts then true
    else stop1
  let stop3 :=
    if limits.visits ≥ 0 ∧ s.totalPlayouts + s.initialVisits ≥ limits.visits
    then true else stop2
  if limits.time_ms ≥ 0 ∧ elapsed ≥ limits.time_ms then true else stop3

/-- Embedding of `Search::MaybeTriggerStop` (`src/mcts/search.cc`).
Returns the updated counters and whether the best-move callback was
invoked during this call.  `elapsed` is `GetTimeSinceStart()`. -/
def maybeTriggerStop (limits : SearchLimits) (elapsed : Int) (s : SState) :
    SState × Bool :=
  if s.totalPlayouts = 0 then (s, false)
  else
    let stop4 := newStopFlag limits elapsed s
    if stop4 = true ∧ s.respondedBestmove = false then
      ({ s with stop := stop4, respondedBestmove := true,
                bestMoveNode := false }, true)
    else ({ s with stop := stop4 }, false)

/-- The operations that can touch the stop/best-move counters during a
search: a `MaybeTriggerStop` call (step 7 of a worker iteration, with the
elapsed time observed at that call), `Search::Stop`, `Search::Abort`, the
`++total_playouts_` of `DoBackupUpdate`, and the
`found_best_move_ = true` write of `PickNodeToExtend`. -/
inductive SearchOp where
  | triggerStop (elapsed : Int)
  | stopCall
  | abortCall
  | incPlayouts
  | setFoundBest
deriving DecidableEq, Repr

/-- One step of the counters state machine; the Boolean reports whether
the best-move callback fired in this step. -/
def stepOp (limits : SearchLimits) (s : SState) : SearchOp → SState × Bool
  | .triggerStop e => maybeTriggerStop limits e s
  | .stopCall => ({ s with stop := true }, false)
  | .abortCall => ({ s with stop := true, respondedBestmove := true }, false)
  | .incPlayouts => ({ s with totalPlayouts := s.totalPlayouts + 1 }, false)
  | .setFoundBest => ({ s with foundBestMove := true }, false)

/-- Run a sequence of counter operations, returning the final state and
the number of best-move events emitted along the way. -/
def runOps (limits : SearchLimits) (s : SState) :
    List SearchOp → SState × Nat
  | [] => (s, 0)
  | op :: rest =>
      let p := stepOp limits s op
      let q := runOps limits p.1 rest
      (q.1, (if p.2 then 1 else 0) + q.2)

/-- The state of the counters when `go` starts a search:
`stop_ = false`, `responded_bestmove_ = false`, `found_best_move_ = false`,
`total_playouts_ = 0` (`src/mcts/search.h` initializers as used by
`search.cc`). -/
def initialSState (initialVisits : Int) : SState :=
  { stop := false, respondedBestmove := false, foundBestMove := false,
    totalPlayouts := 0, initialVisits := initialVisits,
    bestMoveNode := false }

/-! ## Best child selection (`Search::GetBestChildNoTemperature`). -/

/-- A child node as read by `Search::GetBestChildNoTemperature`: visit
count `n` (`GetN`), accumulated value `w`, prior `p` (`GetP`) and the
edge move (as its policy index). -/
structure ChildNode where
  n : Nat
  w : ℚ
  p : ℚ
  move : Nat
deriving DecidableEq, Repr

/-- Modelled from the spec: `Node::GetQ(fallback)` returns `W/N` if
`N > 0`, else `fallback` (`mcts/node.h` is not among the sources;
spec §4.1 `Q(fallback)`). -/
def ChildNode.getQ (c : ChildNode) (fallback : ℚ) : ℚ :=
  if 0 < c.n then c.w / (c.n : ℚ) else fallback

/-- The comparison key `std::tuple<int, float, float>(GetN(), GetQ(-10.0),
GetP())` built by `GetBestChildNoTemperature` for each child. -/
def bestKey (c : ChildNode) : Int × ℚ × ℚ := ((c.n : Int), c.getQ (-10), c.p)

/-- Strict lexicographic `>`, the semantics of `operator>` on
`std::tuple<int, float, float>`. -/
def tupGt (a b : Int × ℚ × ℚ) : Prop :=
  b.1 < a.1 ∨ (a.1 = b.1 ∧ (b.2.1 < a.2.1 ∨ (a.2.1 = b.2.1 ∧ b.2.2 < a.2.2)))

instance (a b : Int × ℚ × ℚ) : Decidable (tupGt a b) := by
  unfold tupGt; infer_instance

/-- Lexicographic `≤` on the comparison keys: the negation of `tupGt`
in the other direction (proved below). -/
def keyLe (a b : Int × ℚ × ℚ) : Prop :=
  a.1 < b.1 ∨ (a.1 = b.1 ∧ (a.2.1 < b.2.1 ∨ (a.2.1 = b.2.1 ∧ a.2.2 ≤ b.2.2)))

/-- The `continue` filter in the children loops of
`GetBestChildNoTemperature` / `GetBestChildWithTemperature`: skip a
child iff the parent is the root, `searchmoves` is non-empty, and the
child's move is not listed. -/
def skipChild (isRoot : Bool) (searchmoves : List Nat) (c : ChildNode) :
    Bool :=
  isRoot && !searchmoves.isEmpty && !(searchmoves.contains c.move)

/-- The children that survive the searchmoves filter. -/
def keptChildren (isRoot : Bool) (searchmoves : List Nat)
    (children : List ChildNode) : List ChildNode :=
  children.filter (fun c => !(skipChild isRoot searchmoves c))

/-- The children loop of `Search::GetBestChildNoTemperature`
(`src/mcts/search.cc`), carrying the running best key and best node
(`nullptr` encoded as `none`). -/
def bestChildLoop (isRoot : Bool) (searchmoves : List Nat) :
    List ChildNode → (Int × ℚ × ℚ) → Option ChildNode → Option ChildNode
  | [], _, bestNode => bestNode
  | c :: rest, best, bestNode =>
      if skipChild isRoot searchmoves c = true then
        bestChildLoop isRoot searchmoves rest best bestNode
      else if tupGt (bestKey c) best then
        bestChildLoop isRoot searchmoves rest (bestKey c) (some c)
      else
        bestChildLoop isRoot searchmoves rest best bestNode

/-- Embedding of `Search::GetBestChildNoTemperature`
(`src/mcts/search.cc`): run the children loop with the initial best key
`(-1, 0.0, 0.0)` and no best node. -/
def getBestChildNoTemperature (isRoot : Bool) (searchmoves : List Nat)
    (children : List ChildNode) : Option ChildNode :=
  bestChildLoop isRoot searchmoves children (-1, 0, 0) none

/-! ## Node extension (`SearchWorker::ExtendNode`). -/

/-- `GameResult` from the board library, as used by `ExtendNode`.
`whiteWon` is the result `GameResult::WHITE_WON`: the side that just
moved (and delivered mate) won, boards being stored from the
side-to-move perspective. -/
inductive GameResult where
  | whiteWon
  | draw
  | blackWon
deriving DecidableEq, Repr

/-- The board-library facts that `SearchWorker::ExtendNode` reads
(modelled from the spec: move generation, check detection and the
rule-draw counters are external collaborators). -/
structure BoardFacts where
  legalMoves : List Nat
  isUnderCheck : Bool
  hasMatingMaterial : Bool
  noCapturePly : Nat
  repetitions : Nat
deriving DecidableEq, Repr

/-- Modelled from the spec: `Node::CreateChild(move)` creates a child
with zero statistics, in particular prior `P = 0` (`mcts/node.cc` not
in sources; spec §4.1 `extend`). -/
def mkChild (m : Nat) : ChildNode := { n := 0, w := 0, p := 0, move := m }

/-- Result of extending a node: either it was marked terminal, or one
child was created per legal move. -/
inductive ExtendResult where
  | terminal (r : GameResult)
  | children (cs : List ChildNode)
deriving DecidableEq, Repr

/-- Embedding of `SearchWorker::ExtendNode` (`src/mcts/search.cc`):
no legal moves ⇒ checkmate (win for the mating side) or stalemate
(draw); else, when not at the root, draw for no mating material, a
100-ply no-capture count, or 2 repetitions, in that order; else one
child per legal move. -/
def extendNode (isRoot : Bool) (b : BoardFacts) : ExtendResult :=
  if b.legalMoves = [] then
    if b.isUnderCheck = true then .terminal .whiteWon else .terminal .draw
  else if isRoot = false ∧ b.hasMatingMaterial = false then .terminal .draw
  else if isRoot = false ∧ b.noCapturePly ≥ 100 then .terminal .draw
  else if isRoot = false ∧ b.repetitions ≥ 2 then .terminal .draw
  else .children (b.legalMoves.map mkChild)

/-! ## Time manager (`EngineController::PopulateSearchLimits`). -/

/-- Embedding of the slowmover adjustment in
`EngineController::PopulateSearchLimits` (`src/engine.cc`): the
computed `this_move_time` is multiplied by `slowmover` exactly when
`slowmover < 1.0 || this_move_time * slowmover > kSmartPruningToleranceMs`
(200 ms). -/
def slowmoverAdjust (slowmover thisMoveTime : ℚ) : ℚ :=
  if slowmover < 1 ∨ thisMoveTime * slowmover > 200 then
    thisMoveTime * slowmover
  else thisMoveTime

/-- The slowmover condition as the specification states it:
"If `slowmover ≥ 1.0` or `this_move_time · slowmover > 200 ms`,
multiply by slowmover." -/
def slowmoverCondSpec (slowmover thisMoveTime : ℚ) : Prop :=
  slowmover ≥ 1 ∨ thisMoveTime * slowmover > 200

/-! ## `SafePtr` bounds check (`src/neural/blas/blas.h`). -/

/-- A `SafePtr<T>` from the BLAS header: the raw pointer abstracted to
whether it is null, the buffer size `size_`, and the running offset
`offset_`. -/
structure SafePtr where
  isNull : Bool
  size : Nat
  offset : Int
deriving DecidableEq, Repr

/-- The check of `SafePtr<T>::operator[](int idx)`: the fatal handler is
invoked exactly when this is `true`
(`ptr_==0 || (idx+offset_)<0 || (idx+offset_)>size_`); otherwise the
access `ptr_[offset_+idx]` is performed. -/
def SafePtr.indexFails (p : SafePtr) (idx : Int) : Bool :=
  p.isNull || decide (idx + p.offset < 0) ||
    decide (idx + p.offset > (p.size : Int))

/-! ## Engine controller position handling (`src/engine.cc`). -/

/-- Modelled from the spec: `ChessBoard::kStartingFen`, the standard
chess starting position (the board library is not among the sources). -/
def kStartingFen : String :=
  "rnbqkbnr/pppppppp/8/8/8/8/PPPPPPPP/RNBQKBNR w KQkq - 0 1"

/-- Modelled from the spec: a `NodeTree` abstracted to the position it
was last reset to — `set_position` "resets the tree to the given FEN and
applied move sequence" (`mcts/node.cc` not in sources). -/
structure EngineTree where
  fen : String
  moves : List String
deriving DecidableEq, Repr

/-- The `EngineController` state touched by `SetPosition` and `Go`:
the optional tree, and the tree the running search was created on
(`none` when no search exists). -/
structure EngineState where
  tree : Option EngineTree
  search : Option EngineTree
deriving DecidableEq, Repr

/-- Embedding of `EngineController::SetPosition` (`src/engine.cc`):
resets `search_`, creates the tree if absent, and resets it to the given
position. -/
def setPosition (s : EngineState) (fen : String) (moves : List String) :
    EngineState :=
  { tree := some { fen := fen, moves := moves }, search := none }

/-- Embedding of `EngineController::Go` (`src/engine.cc`): if no tree
exists, first `SetPosition(ChessBoard::kStartingFen, {})`; then create a
search on the current tree. -/
def engineGo (s : EngineState) : EngineState :=
  let s1 := if s.tree = none then setPosition s kStartingFen [] else s
  { s1 with search := s1.tree }

/-! ## Virtual-visit bookkeeping
(`SearchWorker::PickNodeToExtend` / `SearchWorker::DoBackupUpdate`).

Tree nodes are addressed by their path from the root: the list of child
indices taken.  The statistics relevant to the in-flight invariant are
per-path functions. -/

/-- The per-node statistics read and written by selection and backup:
`arity p` is the number of children of the node at path `p` (0 before
extension), `vis` is the completed visit count `n_`, `nif` is
`n_in_flight_`. -/
structure WState where
  arity : List Nat → Nat
  vis : List Nat → Nat
  nif : List Nat → Nat

/-- Modelled from the spec: `Node::TryStartScoreUpdate` returns `false`
(incrementing nothing) iff another in-flight visit already exists on a
node that has no children yet; otherwise it increments `n_in_flight_`
(`mcts/node.cc` not in sources; spec §4.1).  This is the failure test. -/
def tryStartFails (s : WState) (p : List Nat) : Bool :=
  decide (s.arity p = 0) && decide (0 < s.nif p)

/-- The descent of `SearchWorker::PickNodeToExtend`
(`src/mcts/search.cc`): starting from the root, at each node first
`TryStartScoreUpdate` (return a collision on failure), then stop at a
childless node (leaf, no collision), else descend into the child chosen
by the PUCT scoring loop — the choice is abstracted by the `choices`
stream, reduced modulo the arity so it names an existing child.
Returns the selected path and the collision flag; `none` when the fuel
or the choice stream is exhausted (the real tree is finite, so the real
descent terminates). -/
def pickPath (s : WState) : Nat → List Nat → List Nat →
    Option (List Nat × Bool)
  | 0, _, _ => none
  | fuel + 1, p, choices =>
      if tryStartFails s p = true then some (p, true)
      else if s.arity p = 0 then some (p, false)
      else
        match choices with
        | [] => none
        | c :: rest => pickPath s fuel (p ++ [c % s.arity p]) rest

/-- All prefixes of a path, from the root `[]` up to the path itself. -/
def prefixesOf : List Nat → List (List Nat)
  | [] => [[]]
  | a :: rest => [] :: (prefixesOf rest).map (fun q => a :: q)

/-- The nodes whose `n_in_flight_` one pick has incremented: every node
on the selected path for a completed playout; every node strictly above
the collision node for a collision (`TryStartScoreUpdate` failed on the
collision node itself, so it was not incremented). -/
def incNodes (path : List Nat) (isCollision : Bool) : List (List Nat) :=
  if isCollision then (prefixesOf path).dropLast else prefixesOf path

/-- Apply one `n_in_flight_` increment per listed node (the successive
`TryStartScoreUpdate` calls of one pick). -/
def bumpNif : List (List Nat) → (List Nat → Nat) → (List Nat → Nat)
  | [], f => f
  | q :: rest, f => bumpNif rest (fun p => if p = q then f p + 1 else f p)

/-- Apply one `n_in_flight_` decrement per listed node (the successive
`CancelScoreUpdate` / `FinalizeScoreUpdate` calls of one backup). -/
def decNif : List (List Nat) → (List Nat → Nat) → (List Nat → Nat)
  | [], f => f
  | q :: rest, f => decNif rest (fun p => if p = q then f p - 1 else f p)

/-- Apply one visit-count increment per listed node (the `n_ += 1` of
`FinalizeScoreUpdate`; modelled from the spec, `mcts/node.cc` not in
sources). -/
def bumpVis : List (List Nat) → (List Nat → Nat) → (List Nat → Nat)
  | [], f => f
  | q :: rest, f => bumpVis rest (fun p => if p = q then f p + 1 else f p)

/-- The effect of `SearchWorker::DoBackupUpdate` processing one
`NodeToProcess` record `(path, is_collision)`
(`src/mcts/search.cc`): for a collision, `CancelScoreUpdate` from the
collision node's parent up to and including the root; otherwise
`FinalizeScoreUpdate` from the selected node up to and including the
root.  Both touch exactly the nodes the pick incremented. -/
def backupRecord (s : WState) (r : List Nat × Bool) : WState :=
  { s with nif := decNif (incNodes r.1 r.2) s.nif,
           vis := if r.2 then s.vis else bumpVis (incNodes r.1 r.2) s.vis }

/-- Number of occurrences of a path in a list of paths (used to count
increments/decrements applied to one node). -/
def cnt : List (List Nat) → List Nat → Nat
  | [], _ => 0
  | q :: rest, p => (if p = q then 1 else 0) + cnt rest p

/-- The shared tree together with the picks that have been made but not
yet backed up (the in-flight `NodeToProcess` records of all workers). -/
structure TraceState where
  tree : WState
  pending : List (List Nat × Bool)

/-- Total number of in-flight increments on the node at `p` held by the
pending records. -/
def pendingSum : List (List Nat × Bool) → List Nat → Nat
  | [], _ => 0
  | r :: rest, p => cnt (incNodes r.1 r.2) p + pendingSum rest p

/-- An event on the shared tree: a worker picks a node to extend (with
the PUCT choices it will make and a fuel bound), a worker extends a
childless node into `k` children, or a worker backs up the pending
record at position `i`.  Each event is one of the lock-protected blocks
of `search.cc`, so an execution is an arbitrary interleaving of them. -/
inductive TreeEvent where
  | pick (fuel : Nat) (choices : List Nat)
  | extend (p : List Nat) (k : Nat)
  | backup (i : Nat)

/-- One event step on the shared tree. -/
def stepEvent (t : TraceState) : TreeEvent → TraceState
  | .pick fuel choices =>
      match pickPath t.tree fuel [] choices with
      | none => t
      | some r =>
          { tree := { t.tree with
                        nif := bumpNif (incNodes r.1 r.2) t.tree.nif },
            pending := t.pending ++ [r] }
  | .extend p k =>
      if t.tree.arity p = 0 then
        { t with tree := { t.tree with
            arity := fun q => if q = p then k else t.tree.arity q } }
      else t
  | .backup i =>
      match t.pending.drop i with
      | [] => t
      | r :: rest =>
          { tree := backupRecord t.tree r,
            pending := t.pending.take i ++ rest }

/-- Run a sequence of tree events. -/
def runEvents (t : TraceState) : List TreeEvent → TraceState
  | [] => t
  | e :: rest => runEvents (stepEvent t e) rest

/-! ## Streaming network backend (`src/neural/network_stream.cc`). -/

/-- A peer `NetworkComputation` abstracted to the list of inputs it was
given, inputs being opaque plane identifiers; `GetQVal(i)` /
`GetPVal(i, m)` on it are an abstract evaluator applied to its `i`-th
input. -/
structure PeerComp where
  inputs : List Nat
deriving DecidableEq, Repr

/-- `StreamComputation::Lookup` (`src/neural/network_stream.cc`): a peer
computation and the index (`cmp_index_`) of this sample inside it. -/
structure SlotLookup where
  cmp : PeerComp
  cmpIndex : Nat
deriving DecidableEq, Repr

/-- `Lookup::GetQVal`: `cmp_->GetQVal(cmp_index_)`, i.e. the evaluator's
Q for the `cmp_index_`-th input of the peer computation. -/
def SlotLookup.qVal (evalQ : Nat → ℚ) (lk : SlotLookup) : ℚ :=
  evalQ (lk.cmp.inputs.getD lk.cmpIndex 0)

/-- `Lookup::GetPVal(move_id)`: `cmp_->GetPVal(cmp_index_, move_id)`. -/
def SlotLookup.pVal (evalP : Nat → Nat → ℚ) (lk : SlotLookup)
    (moveId : Nat) : ℚ :=
  evalP (lk.cmp.inputs.getD lk.cmpIndex 0) moveId

/-- The state of one `StreamComputation` during `ComputeBlocking`,
with the network task queue projected onto this computation: `queue`
holds the slot indices pushed by `StreamNetwork::Add` and not yet
claimed by a worker thread; `inflight` holds claimed tasks whose
`Receive` has not yet run, with the lookup each will deliver; `peers`
and `remaining` are the computation's fields. -/
structure StreamState where
  planes : List Nat
  queue : List Nat
  inflight : List (Nat × SlotLookup)
  peers : Nat → Option SlotLookup
  remaining : Nat

/-- `StreamComputation::ComputeBlocking` up to its wait
(`src/neural/network_stream.cc`): set `remaining_` to the batch size,
resize `peers_`, push one task per slot in slot order
(`network_.Add(*this, i)`), flush.  The call then blocks until the wait
guard `remaining_ == 0` holds. -/
def streamStart (planes : List Nat) : StreamState :=
  { planes := planes, queue := List.range planes.length, inflight := [],
    peers := fun _ => none, remaining := planes.length }

/-- A worker-thread event: `grab k` is `StreamNetwork::ThreadStep`
claiming the first `min(k, queue size)` queued tasks (`k = 32` in the
source; smaller `k` is the projection onto this computation of a batch
shared with other computations) and building the peer batch from their
planes in claim order; `recv i` is one `StreamComputation::Receive`
call, delivering the in-flight task at position `i`. -/
inductive StreamEvent where
  | grab (k : Nat)
  | recv (i : Nat)

/-- The tasks claimed by one `ThreadStep`/`ThreadLoop` round for a batch
of slot indices: the peer computation is built from the planes of the
batch in claim order (`peerComp->AddInput(planes_[task.index])`), and
the task for slot `batch[m]` will deliver `Lookup(peerComp, m)` to that
slot (`Receive(task.index, peerComp, cmp_index++)`). -/
def claimedTasks (planes : List Nat) (batch : List Nat) :
    List (Nat × SlotLookup) :=
  (List.range batch.length).map
    (fun m => (batch.getD m 0,
      { cmp := { inputs := batch.map (fun j => planes.getD j 0) },
        cmpIndex := m }))

/-- One worker-thread step of the streaming backend. -/
def streamStep (s : StreamState) : StreamEvent → StreamState
  | .grab k =>
      if s.queue = [] then s
      else
        let n := min k s.queue.length
        { s with queue := s.queue.drop n,
                 inflight := s.inflight ++
                   claimedTasks s.planes (s.queue.take n) }
  | .recv i =>
      match s.inflight.drop i with
      | [] => s
      | (j, lk) :: rest =>
          { s with
            peers := fun q => if q = j then some lk else s.peers q,
            inflight := s.inflight.take i ++ rest,
            remaining := s.remaining - 1 }

/-- Run a sequence of streaming-backend events. -/
def runStream (s : StreamState) : List StreamEvent → StreamState
  | [] => s
  | e :: rest => runStream (streamStep s e) rest

/-- `StreamComputation::GetQVal(sample)`:
`peers_[sample].GetQVal()`; 0 stands for the indeterminate read of an
unfilled slot. -/
def StreamState.getQ (s : StreamState) (evalQ : Nat → ℚ) (sample : Nat) :
    ℚ :=
  match s.peers sample with
  | some lk => lk.qVal evalQ
  | none => 0

/-- `StreamComputation::GetPVal(sample, move_id)`:
`peers_[sample].GetPVal(move_id)`. -/
def StreamState.getP (s : StreamState) (evalP : Nat → Nat → ℚ)
    (sample : Nat) (moveId : Nat) : ℚ :=
  match s.peers sample with
  | some lk => lk.pVal evalP moveId
  | none => 0

/-- Invariant of the streaming computation: `remaining_` counts the
slots not yet received; the slots still queued or in flight are
pairwise distinct and exactly the unanswered ones; a claimed task
carries a lookup that reads its own slot's plane; an answered slot
stores a lookup that reads its own slot's plane. -/
def StreamInv (s : StreamState) : Prop :=
  s.remaining = s.queue.length + s.inflight.length ∧
  (s.queue ++ s.inflight.map Prod.fst).Nodup ∧
  (∀ j ∈ s.queue, j < s.planes.length ∧ s.peers j = none) ∧
  (∀ pr ∈ s.inflight, pr.1 < s.planes.length ∧ s.peers pr.1 = none ∧
    pr.2.cmp.inputs.getD pr.2.cmpIndex 0 = s.planes.getD pr.1 0) ∧
  (∀ j, j < s.planes.length → s.peers j = none →
    j ∈ s.queue ∨ j ∈ s.inflight.map Prod.fst) ∧
  (∀ j lk, s.peers j = some lk →
    lk.cmp.inputs.getD lk.cmpIndex 0 = s.planes.getD j 0)

/-! # Theorems -/

/-- **C1.** The playouts-gated branch of `Search::UpdateRemainingMoves`
reads `limits_.visits`, not `limits_.playouts`: with only a playouts
limit set (`visits = -1`, `playouts = 10`, no time limit,
`total_playouts = 5`, `minibatch = 1`) the function returns 1 (the
clamp of `-1 - 5 + 1 + 1`), returns the same 1 when the playouts limit
is changed to 1000000, and the spec's playouts-based bound
`playouts_limit − total_playouts + minibatch_size + 1` is 7. -/
theorem updateRemainingMoves_playouts_branch_reads_visits :
    updateRemainingMoves true 1
      { visits := -1, playouts := 10, time_ms := -1, infinite := false,
        searchmoves := [] } 0 5 0 0 = 1 ∧
    updateRemainingMoves true 1
      { visits := -1, playouts := 1000000, time_ms := -1, infinite := false,
        searchmoves := [] } 0 5 0 0 = 1 ∧
    playoutsBoundSpec 1
      { visits := -1, playouts := 10, time_ms := -1, infinite := false,
        searchmoves := [] } 5 = 7 := by
  refine ⟨?_, ?_, ?_⟩ <;> decide

/-- **C3.** `Search::MaybeTriggerStop` leaves the stop flag (indeed the
whole counters state) unchanged when `total_playouts_ == 0`; otherwise,
whenever a visits limit is set and
`total_playouts_ + initial_visits_ ≥ limits_.visits`, it sets `stop_`. -/
theorem maybeTriggerStop_spec (limits : SearchLimits) (elapsed : Int)
    (s : SState) :
    (s.totalPlayouts = 0 →
      (maybeTriggerStop limits elapsed s).1.stop = s.stop) ∧
    (s.totalPlayouts ≠ 0 → limits.visits ≥ 0 →
      s.totalPlayouts + s.initialVisits ≥ limits.visits →
      (maybeTriggerStop limits elapsed s).1.stop = true) := by
  constructor
  · intro h
    simp [maybeTriggerStop, h]
  · intro h1 h2 h3
    have hflag : newStopFlag limits elapsed s = true := by
      unfold newStopFlag
      split_ifs <;>
        first
          | rfl
          | exact absurd (And.intro h2 h3) (by assumption)
    unfold maybeTriggerStop
    rw [if_neg h1]
    simp only [hflag]
    split <;> rfl

/-- Witness for **C3** at concrete inputs: a state with
`total_playouts = 0` is left unchanged, and a state past a set visits
limit gets `stop_ = true`. -/
theorem maybeTriggerStop_spec_witness :
    (maybeTriggerStop
      { visits := 10, playouts := -1, time_ms := -1, infinite := false,
        searchmoves := [] } 0 (initialSState 0)).1.stop =
        (initialSState 0).stop ∧
    (maybeTriggerStop
      { visits := 10, playouts := -1, time_ms := -1, infinite := false,
        searchmoves := [] } 0
      { stop := false, respondedBestmove := false, foundBestMove := false,
        totalPlayouts := 7, initialVisits := 3, bestMoveNode := true
        }).1.stop = true :=
  ⟨(maybeTriggerStop_spec _ 0 _).1 (by decide),
   (maybeTriggerStop_spec _ 0 _).2 (by decide) (by decide) (by decide)⟩

/-- **C6.** `SearchWorker::ExtendNode`: with no legal moves the node is
marked terminal — a win for the side that delivered mate when the side
to move is in check, else a draw — and this classification happens
before (so regardless of) the by-rule draw conditions; with legal moves
and not at the root, a draw is marked for missing mating material, a
no-capture count of at least 100 plies, or at least 2 repetitions;
otherwise exactly one child per legal move is created, with `P = 0`. -/
theorem extendNode_spec (isRoot : Bool) (b : BoardFacts) :
    (b.legalMoves = [] → b.isUnderCheck = true →
      extendNode isRoot b = .terminal .whiteWon) ∧
    (b.legalMoves = [] → b.isUnderCheck = false →
      extendNode isRoot b = .terminal .draw) ∧
    (b.legalMoves ≠ [] → isRoot = false →
      (b.hasMatingMaterial = false ∨ b.noCapturePly ≥ 100 ∨
        b.repetitions ≥ 2) →
      extendNode isRoot b = .terminal .draw) ∧
    (b.legalMoves ≠ [] →
      (isRoot = true ∨ (b.hasMatingMaterial = true ∧ b.noCapturePly < 100 ∧
        b.repetitions < 2)) →
      extendNode isRoot b = .children (b.legalMoves.map mkChild) ∧
      ∀ c ∈ b.legalMoves.map mkChild, c.p = 0) := by
  refine ⟨?_, ?_, ?_, ?_⟩
  · intro h hc; simp [extendNode, h, hc]
  · intro h hc; simp [extendNode, h, hc]
  · intro h hr hcase
    rcases hcase with hm | hn | hrep
    · simp [extendNode, h, hr, hm]
    · unfold extendNode
      rw [if_neg h]
      split
      · rfl
      · rw [if_pos ⟨hr, hn⟩]
    · unfold extendNode
      rw [if_neg h]
      split
      · rfl
      · split
        · rfl
        · rw [if_pos ⟨hr, hrep⟩]
  · intro h hcase
    constructor
    · rcases hcase with hr | ⟨hm, hn, hrep⟩
      · simp [extendNode, h, hr]
      · unfold extendNode
        rw [if_neg h,
            if_neg (by rintro ⟨-, h2⟩; rw [hm] at h2; exact absurd h2 (by simp)),
            if_neg (by rintro ⟨-, h2⟩; omega),
            if_neg (by rintro ⟨-, h2⟩; omega)]
    · intro c hc
      rcases List.mem_map.mp hc with ⟨m, -, rfl⟩
      rfl

/-- Witness for **C6** at concrete inputs: a mate position (no legal
moves, in check, with all by-rule draw conditions also holding — the
mate classification wins), and a rule-draw position below the root. -/
theorem extendNode_spec_witness :
    extendNode false
      { legalMoves := [], isUnderCheck := true, hasMatingMaterial := false,
        noCapturePly := 120, repetitions := 3 } =
      ExtendResult.terminal GameResult.whiteWon ∧
    extendNode false
      { legalMoves := [4, 7], isUnderCheck := false,
        hasMatingMaterial := true, noCapturePly := 100, repetitions := 0 } =
      ExtendResult.terminal GameResult.draw :=
  ⟨(extendNode_spec false _).1 rfl rfl,
   ((extendNode_spec false _).2.2.1 (by decide) rfl
     (Or.inr (Or.inl (by decide))))⟩

/-- **C7 counterexample.** With `slowmover = 2` and
`this_move_time = 50`, the spec's condition (`slowmover ≥ 1.0` or
`this_move_time·slowmover > 200`) holds, yet the code does not multiply:
the result stays 50, not 100. -/
theorem slowmover_claim_counterexample :
    slowmoverCondSpec 2 50 ∧ slowmoverAdjust 2 50 = 50 ∧
      (50 : ℚ) * 2 = 100 ∧ (100 : ℚ) ≠ 50 := by
  refine ⟨Or.inl (by norm_num), ?_, by norm_num, by norm_num⟩
  unfold slowmoverAdjust
  rw [if_neg]
  push_neg
  constructor <;> norm_num

/-- **C7 (amended).** In `EngineController::PopulateSearchLimits`, when
movetime is unset and clock time is known, the computed per-move time is
multiplied by `slowmover` if and only if `slowmover < 1.0` or
`this_move_time · slowmover > 200` ms; otherwise it is left unchanged. -/
theorem slowmoverAdjust_spec (slowmover t : ℚ) :
    (slowmover < 1 ∨ t * slowmover > 200 →
      slowmoverAdjust slowmover t = t * slowmover) ∧
    (¬(slowmover < 1 ∨ t * slowmover > 200) →
      slowmoverAdjust slowmover t = t) := by
  constructor
  · intro h; simp only [slowmoverAdjust, if_pos h]
  · intro h; simp only [slowmoverAdjust, if_neg h]

/-- Witness for **C7 (amended)** at concrete inputs: a reducing
`slowmover = 1/2` is applied to 50 ms, and `slowmover = 2` is not
applied to 50 ms. -/
theorem slowmoverAdjust_spec_witness :
    slowmoverAdjust (1/2) 50 = 50 * (1/2) ∧ slowmoverAdjust 2 50 = 50 :=
  ⟨(slowmoverAdjust_spec (1/2) 50).1 (Or.inl (by norm_num)),
   (slowmoverAdjust_spec 2 50).2 (by push_neg; constructor <;> norm_num)⟩

/-- **C9.** For a `SafePtr` with a non-null pointer, `operator[](idx)`
invokes the fatal handler exactly when `idx + offset < 0` or
`idx + offset > size`; in particular an access with
`idx + offset == size` — one element past the last valid index — passes
the check and is performed without invoking the handler. -/
theorem safePtr_index_check (p : SafePtr) (idx : Int)
    (hnn : p.isNull = false) :
    (p.indexFails idx = true ↔
      idx + p.offset < 0 ∨ idx + p.offset > (p.size : Int)) ∧
    (idx + p.offset = (p.size : Int) → p.indexFails idx = false) := by
  constructor
  · simp [SafePtr.indexFails, hnn]
  · intro h
    simp [SafePtr.indexFails, hnn, h]

/-- Witness for **C9** at a concrete input: a non-null pointer over 4
elements with offset 1; `operator[](3)` touches index 4 == size and the
handler is not invoked. -/
theorem safePtr_index_check_witness :
    (({ isNull := false, size := 4, offset := 1 } : SafePtr).indexFails 3 =
        true ↔ (3 : Int) + 1 < 0 ∨ (3 : Int) + 1 > (4 : Int)) ∧
    ({ isNull := false, size := 4, offset := 1 } : SafePtr).indexFails 3 =
      false :=
  ⟨(safePtr_index_check _ 3 rfl).1,
   (safePtr_index_check _ 3 rfl).2 (by decide)⟩

/-- **C10.** If `go` is issued while no search tree exists,
`EngineController::Go` first resets the position to the standard
starting FEN with an empty move list and then starts the search on that
tree. -/
theorem engineGo_no_tree (s : EngineState) (h : s.tree = none) :
    engineGo s =
      { tree := some { fen := kStartingFen, moves := [] },
        search := some { fen := kStartingFen, moves := [] } } := by
  simp [engineGo, h, setPosition]

/-- Witness for **C10** at the concrete fresh-engine state. -/
theorem engineGo_no_tree_witness :
    engineGo { tree := none, search := none } =
      { tree := some { fen := kStartingFen, moves := [] },
        search := some { fen := kStartingFen, moves := [] } } :=
  engineGo_no_tree { tree := none, search := none } rfl

theorem keyLe_refl (a : Int × ℚ × ℚ) : keyLe a a :=
  Or.inr ⟨rfl, Or.inr ⟨rfl, le_refl _⟩⟩

theorem keyLe_trans {a b c : Int × ℚ × ℚ} (h1 : keyLe a b)
    (h2 : keyLe b c) : keyLe a c := by
  rcases h1 with h1 | ⟨e1, h1⟩ <;> rcases h2 with h2 | ⟨e2, h2⟩
  · exact Or.inl (lt_trans h1 h2)
  · exact Or.inl (e2 ▸ h1)
  · exact Or.inl (e1 ▸ h2)
  · right
    refine ⟨e1.trans e2, ?_⟩
    rcases h1 with h1 | ⟨f1, h1⟩ <;> rcases h2 with h2 | ⟨f2, h2⟩
    · exact Or.inl (lt_trans h1 h2)
    · exact Or.inl (f2 ▸ h1)
    · exact Or.inl (f1 ▸ h2)
    · exact Or.inr ⟨f1.trans f2, le_trans h1 h2⟩

theorem tupGt_imp_keyLe {a b : Int × ℚ × ℚ} (h : tupGt a b) : keyLe b a := by
  rcases h with h | ⟨e, h⟩
  · exact Or.inl h
  · right
    refine ⟨e.symm, ?_⟩
    rcases h with h | ⟨f, h⟩
    · exact Or.inl h
    · exact Or.inr ⟨f.symm, le_of_lt h⟩

theorem keyLe_of_not_tupGt {a b : Int × ℚ × ℚ} (h : ¬ tupGt a b) :
    keyLe a b := by
  unfold tupGt at h
  push_neg at h
  obtain ⟨h1, h2⟩ := h
  rcases h1.lt_or_eq with h1 | h1
  · exact Or.inl h1
  · obtain ⟨h3, h4⟩ := h2 h1
    rcases h3.lt_or_eq with h3 | h3
    · exact Or.inr ⟨h1, Or.inl h3⟩
    · exact Or.inr ⟨h1, Or.inr ⟨h3, h4 h3⟩⟩

theorem bestKey_gt_init (c : ChildNode) : tupGt (bestKey c) (-1, 0, 0) :=
  Or.inl (lt_of_lt_of_le (by norm_num) (Int.natCast_nonneg c.n))

theorem not_keyLe_init (c : ChildNode) : ¬ keyLe (bestKey c) (-1, 0, 0) := by
  intro h
  have hn : (0 : Int) ≤ (c.n : Int) := Int.natCast_nonneg c.n
  rcases h with h | ⟨h, -⟩
  · change (c.n : Int) < -1 at h
    omega
  · change (c.n : Int) = -1 at h
    omega

/-- Invariant of the children loop of `GetBestChildNoTemperature`: when
the running key matches the running best node, the loop's result key
dominates the running key and every kept child of the remaining list,
and the result is either the running best node or a kept child. -/
theorem bestChildLoop_spec (isRoot : Bool) (sm : List Nat) :
    ∀ (l : List ChildNode) (best : Int × ℚ × ℚ) (bn : Option ChildNode),
      (∀ b, bn = some b → best = bestKey b) →
      (bn = none → best = (-1, 0, 0)) →
      ∃ kr : Int × ℚ × ℚ,
        (∀ b, bestChildLoop isRoot sm l best bn = some b →
          kr = bestKey b) ∧
        (bestChildLoop isRoot sm l best bn = none → kr = (-1, 0, 0)) ∧
        keyLe best kr ∧
        (bestChildLoop isRoot sm l best bn = bn ∨
          ∃ c ∈ keptChildren isRoot sm l,
            bestChildLoop isRoot sm l best bn = some c) ∧
        (∀ c ∈ keptChildren isRoot sm l, keyLe (bestKey c) kr) := by
  intro l
  induction l with
  | nil =>
      intro best bn hsome hnone
      refine ⟨best, ?_, ?_, keyLe_refl best, Or.inl rfl, ?_⟩
      · intro b hb; exact hsome b hb
      · intro hb; exact hnone hb
      · intro c hc; simp [keptChildren] at hc
  | cons c rest ih =>
      intro best bn hsome hnone
      by_cases hskip : skipChild isRoot sm c = true
      · have hloop : bestChildLoop isRoot sm (c :: rest) best bn =
            bestChildLoop isRoot sm rest best bn := by
          simp [bestChildLoop, hskip]
        have hkept : keptChildren isRoot sm (c :: rest) =
            keptChildren isRoot sm rest := by
          simp [keptChildren, List.filter_cons, hskip]
        obtain ⟨kr, h1, h2, h3, h4, h5⟩ := ih best bn hsome hnone
        refine ⟨kr, ?_, ?_, h3, ?_, ?_⟩
        · intro b hb; exact h1 b (hloop ▸ hb)
        · intro hb; exact h2 (hloop ▸ hb)
        · rw [hloop, hkept]; exact h4
        · rw [hkept]; exact h5
      · have hkept : keptChildren isRoot sm (c :: rest) =
            c :: keptChildren isRoot sm rest := by
          simp [keptChildren, List.filter_cons,
            Bool.eq_false_iff.mpr hskip]
        by_cases hgt : tupGt (bestKey c) best
        · have hloop : bestChildLoop isRoot sm (c :: rest) best bn =
              bestChildLoop isRoot sm rest (bestKey c) (some c) := by
            simp only [bestChildLoop, hskip]
            rw [if_neg (by simp [hskip]), if_pos hgt]
          obtain ⟨kr, h1, h2, h3, h4, h5⟩ :=
            ih (bestKey c) (some c) (fun b hb => by cases hb; rfl)
              (fun hx => by cases hx)
          refine ⟨kr, ?_, ?_, ?_, ?_, ?_⟩
          · intro b hb; exact h1 b (hloop ▸ hb)
          · intro hb; exact h2 (hloop ▸ hb)
          · exact keyLe_trans (tupGt_imp_keyLe hgt) h3
          · right
            rw [hloop, hkept]
            rcases h4 with h4 | ⟨c1, hc1, hc2⟩
            · exact ⟨c, List.mem_cons_self c _, h4⟩
            · exact ⟨c1, List.mem_cons_of_mem c hc1, hc2⟩
          · intro c1 hc1
            rw [hkept] at hc1
            rcases List.mem_cons.mp hc1 with rfl | hc1
            · exact h3
            · exact h5 c1 hc1
        · have hloop : bestChildLoop isRoot sm (c :: rest) best bn =
              bestChildLoop isRoot sm rest best bn := by
            simp only [bestChildLoop, hskip]
            rw [if_neg (by simp [hskip]), if_neg hgt]
          obtain ⟨kr, h1, h2, h3, h4, h5⟩ := ih best bn hsome hnone
          refine ⟨kr, ?_, ?_, h3, ?_, ?_⟩
          · intro b hb; exact h1 b (hloop ▸ hb)
          · intro hb; exact h2 (hloop ▸ hb)
          · rw [hloop, hkept]
            rcases h4 with h4 | ⟨c1, hc1, hc2⟩
            · exact Or.inl h4
            · exact Or.inr ⟨c1, List.mem_cons_of_mem c hc1, hc2⟩
          · intro c1 hc1
            rw [hkept] at hc1
            rcases List.mem_cons.mp hc1 with rfl | hc1
            · exact keyLe_trans (keyLe_of_not_tupGt hgt) h3
            · exact h5 c1 hc1

/-- **C5.** `GetBestChildNoTemperature` returns, among the parent's
children that survive the root searchmoves filter, a child maximal in
the lexicographic order on `(N, Q(-10), P)` — largest visit count `N`,
ties broken by larger `Q` with fallback −10 for unvisited children,
then by larger prior `P`. -/
theorem getBestChildNoTemperature_spec (isRoot : Bool) (sm : List Nat)
    (children : List ChildNode)
    (hne : keptChildren isRoot sm children ≠ []) :
    ∃ b, getBestChildNoTemperature isRoot sm children = some b ∧
      b ∈ keptChildren isRoot sm children ∧
      ∀ c ∈ keptChildren isRoot sm children,
        keyLe (bestKey c) (bestKey b) := by
  obtain ⟨kr, h1, h2, -, h4, h5⟩ :=
    bestChildLoop_spec isRoot sm children (-1, 0, 0) none
      (fun b hb => by cases hb) (fun _ => rfl)
  obtain ⟨c0, hc0⟩ := List.exists_mem_of_ne_nil _ hne
  rcases h4 with h4 | ⟨b, hb, hres⟩
  · exfalso
    exact not_keyLe_init c0 (h2 h4 ▸ h5 c0 hc0)
  · refine ⟨b, hres, hb, ?_⟩
    intro c hc
    have := h5 c hc
    rwa [h1 b hres] at this

/-- Witness for **C5** at a concrete input: two unfiltered children,
the more-visited one wins. -/
theorem getBestChildNoTemperature_spec_witness :
    ∃ b, getBestChildNoTemperature false []
        [{ n := 1, w := 1/2, p := 1/4, move := 5 },
         { n := 3, w := -1, p := 1/3, move := 7 }] = some b ∧
      b ∈ keptChildren false []
        [{ n := 1, w := 1/2, p := 1/4, move := 5 },
         { n := 3, w := -1, p := 1/3, move := 7 }] ∧
      ∀ c ∈ keptChildren false []
        [{ n := 1, w := 1/2, p := 1/4, move := 5 },
         { n := 3, w := -1, p := 1/3, move := 7 }],
        keyLe (bestKey c) (bestKey b) :=
  getBestChildNoTemperature_spec false [] _ (by decide)

theorem stepOp_responded_mono (limits : SearchLimits) (s : SState)
    (op : SearchOp) (h : s.respondedBestmove = true) :
    (stepOp limits s op).1.respondedBestmove = true := by
  cases op with
  | triggerStop e =>
      simp only [stepOp, maybeTriggerStop]
      split
      · exact h
      · split
        · rfl
        · exact h
  | stopCall => exact h
  | abortCall => rfl
  | incPlayouts => exact h
  | setFoundBest => exact h

theorem stepOp_emit_responded (limits : SearchLimits) (s : SState)
    (op : SearchOp) (h : (stepOp limits s op).2 = true) :
    (stepOp limits s op).1.respondedBestmove = true := by
  cases op with
  | triggerStop e =>
      simp only [stepOp, maybeTriggerStop] at h ⊢
      by_cases h0 : s.totalPlayouts = 0
      · rw [if_pos h0] at h
        cases h
      · rw [if_neg h0] at h ⊢
        by_cases hc : newStopFlag limits e s = true ∧
            s.respondedBestmove = false
        · rw [if_pos hc]
        · rw [if_neg hc] at h
          cases h
  | stopCall => cases h
  | abortCall => rfl
  | incPlayouts => cases h
  | setFoundBest => cases h

theorem stepOp_no_emit (limits : SearchLimits) (s : SState)
    (op : SearchOp) (h : s.respondedBestmove = true) :
    (stepOp limits s op).2 = false := by
  cases op with
  | triggerStop e =>
      simp only [stepOp, maybeTriggerStop]
      by_cases h0 : s.totalPlayouts = 0
      · rw [if_pos h0]
      · rw [if_neg h0]
        rw [if_neg (by rintro ⟨-, h2⟩; rw [h] at h2; cases h2)]
  | stopCall => rfl
  | abortCall => rfl
  | incPlayouts => rfl
  | setFoundBest => rfl

theorem stepOp_responded_from (limits : SearchLimits) (s : SState)
    (op : SearchOp)
    (h : (stepOp limits s op).1.respondedBestmove = true) :
    s.respondedBestmove = true ∨ op = SearchOp.abortCall ∨
      (stepOp limits s op).2 = true := by
  cases op with
  | triggerStop e =>
      simp only [stepOp, maybeTriggerStop] at h ⊢
      by_cases h0 : s.totalPlayouts = 0
      · rw [if_pos h0] at h
        exact Or.inl h
      · rw [if_neg h0] at h ⊢
        by_cases hc : newStopFlag limits e s = true ∧
            s.respondedBestmove = false
        · rw [if_pos hc]
          exact Or.inr (Or.inr rfl)
        · rw [if_neg hc] at h
          exact Or.inl h
  | stopCall => exact Or.inl h
  | abortCall => exact Or.inr (Or.inl rfl)
  | incPlayouts => exact Or.inl h
  | setFoundBest => exact Or.inl h

theorem runOps_cons (limits : SearchLimits) (s : SState) (op : SearchOp)
    (rest : List SearchOp) :
    runOps limits s (op :: rest) =
      ((runOps limits (stepOp limits s op).1 rest).1,
       (if (stepOp limits s op).2 then 1 else 0) +
         (runOps limits (stepOp limits s op).1 rest).2) := rfl

theorem runOps_responded_mono (limits : SearchLimits) (s : SState)
    (l : List SearchOp) (h : s.respondedBestmove = true) :
    (runOps limits s l).1.respondedBestmove = true := by
  induction l generalizing s with
  | nil => exact h
  | cons op rest ih => exact ih _ (stepOp_responded_mono _ _ _ h)

theorem runOps_no_emit (limits : SearchLimits) (s : SState)
    (l : List SearchOp) (h : s.respondedBestmove = true) :
    (runOps limits s l).2 = 0 := by
  induction l generalizing s with
  | nil => rfl
  | cons op rest ih =>
      rw [runOps_cons, stepOp_no_emit limits s op h]
      simp only [Bool.false_eq_true, if_false, zero_add]
      exact ih _ (stepOp_responded_mono _ _ _ h)

theorem runOps_le_one (limits : SearchLimits) (s : SState)
    (l : List SearchOp) : (runOps limits s l).2 ≤ 1 := by
  induction l generalizing s with
  | nil => exact Nat.zero_le 1
  | cons op rest ih =>
      rw [runOps_cons]
      by_cases h : (stepOp limits s op).2 = true
      · rw [h, if_pos rfl,
            runOps_no_emit limits _ rest (stepOp_emit_responded _ _ _ h)]
      · rw [Bool.not_eq_true] at h
        rw [h]
        simpa using ih _

theorem runOps_pos_responded (limits : SearchLimits) (s : SState)
    (l : List SearchOp) (h : 1 ≤ (runOps limits s l).2) :
    (runOps limits s l).1.respondedBestmove = true := by
  induction l generalizing s with
  | nil => cases h
  | cons op rest ih =>
      by_cases hop : (stepOp limits s op).2 = true
      · exact runOps_responded_mono limits (stepOp limits s op).1 rest
          (stepOp_emit_responded limits s op hop)
      · rw [Bool.not_eq_true] at hop
        rw [runOps_cons] at h
        rw [hop] at h
        simp only [Bool.false_eq_true, if_false, zero_add] at h
        exact ih _ h

theorem runOps_append (limits : SearchLimits) (s : SState)
    (l1 l2 : List SearchOp) :
    runOps limits s (l1 ++ l2) =
      ((runOps limits (runOps limits s l1).1 l2).1,
       (runOps limits s l1).2 +
         (runOps limits (runOps limits s l1).1 l2).2) := by
  induction l1 generalizing s with
  | nil =>
      show runOps limits s l2 =
        ((runOps limits s l2).1, 0 + (runOps limits s l2).2)
      rw [zero_add]
  | cons op rest ih =>
      rw [show runOps limits s ((op :: rest) ++ l2) =
          ((runOps limits (stepOp limits s op).1 (rest ++ l2)).1,
           (if (stepOp limits s op).2 then 1 else 0) +
             (runOps limits (stepOp limits s op).1 (rest ++ l2)).2)
          from rfl,
        ih, ← add_assoc]
      rfl

theorem runOps_responded_source (limits : SearchLimits) (s : SState)
    (l : List SearchOp)
    (h : (runOps limits s l).1.respondedBestmove = true) :
    s.respondedBestmove = true ∨ SearchOp.abortCall ∈ l ∨
      1 ≤ (runOps limits s l).2 := by
  induction l generalizing s with
  | nil => exact Or.inl h
  | cons op rest ih =>
      by_cases hop : (stepOp limits s op).2 = true
      · refine Or.inr (Or.inr ?_)
        rw [runOps_cons, hop, if_pos rfl]
        exact Nat.le_add_right 1 _
      · rcases ih (stepOp limits s op).1 h with h1 | h1 | h1
        · rcases stepOp_responded_from limits s op h1 with h2 | h2 | h2
          · exact Or.inl h2
          · exact Or.inr (Or.inl (h2 ▸ List.mem_cons_self op rest))
          · exact absurd h2 hop
        · exact Or.inr (Or.inl (List.mem_cons_of_mem op h1))
        · refine Or.inr (Or.inr ?_)
          rw [runOps_cons]
          exact le_add_of_nonneg_of_le (Nat.zero_le _) h1

theorem maybeTriggerStop_emits (limits : SearchLimits) (e : Int)
    (s : SState) (h1 : s.totalPlayouts ≠ 0)
    (h2 : s.respondedBestmove = false)
    (h3 : (maybeTriggerStop limits e s).1.stop = true) :
    (maybeTriggerStop limits e s).2 = true := by
  simp only [maybeTriggerStop, if_neg h1] at h3 ⊢
  by_cases hc : newStopFlag limits e s = true ∧ s.respondedBestmove = false
  · rw [if_pos hc]
  · rw [if_neg hc] at h3
    exact absurd ⟨h3, h2⟩ hc

/-- **C4.** Over any interleaving of `MaybeTriggerStop` calls,
`Stop`, `Abort`, playout completions and found-best-move writes,
starting from a fresh search: (1) the best-move callback fires at most
once (`responded_bestmove_` gates it); (2) if `Abort` is called before
any best-move event, no best-move event is ever emitted; (3) if no
`Abort` occurs and some `MaybeTriggerStop` call runs at a state with
completed playouts and computes `stop_ = true` (the stop transition),
the best-move event is emitted exactly once. -/
theorem bestmove_event_unique (limits : SearchLimits) (iv : Int) :
    (∀ trace : List SearchOp,
      (runOps limits (initialSState iv) trace).2 ≤ 1) ∧
    (∀ t1 t2 : List SearchOp,
      (runOps limits (initialSState iv) t1).2 = 0 →
      (runOps limits (initialSState iv)
        (t1 ++ SearchOp.abortCall :: t2)).2 = 0) ∧
    (∀ (t1 t2 : List SearchOp) (e : Int),
      SearchOp.abortCall ∉ t1 ++ SearchOp.triggerStop e :: t2 →
      (runOps limits (initialSState iv) t1).1.totalPlayouts ≠ 0 →
      (maybeTriggerStop limits e
        (runOps limits (initialSState iv) t1).1).1.stop = true →
      (runOps limits (initialSState iv)
        (t1 ++ SearchOp.triggerStop e :: t2)).2 = 1) := by
  refine ⟨fun trace => runOps_le_one limits _ trace, ?_, ?_⟩
  · intro t1 t2 hc1
    rw [runOps_append]
    dsimp only
    rw [hc1, zero_add, runOps_cons]
    dsimp only
    set s1 := (runOps limits (initialSState iv) t1).1 with hs1
    have hstep2 : (stepOp limits s1 SearchOp.abortCall).2 = false := rfl
    have habort : (stepOp limits s1
        SearchOp.abortCall).1.respondedBestmove = true := rfl
    rw [hstep2]
    simp only [Bool.false_eq_true, if_false, zero_add]
    exact runOps_no_emit limits _ t2 habort
  · intro t1 t2 e habs htp hstop
    have habs1 : SearchOp.abortCall ∉ t1 := fun hmem =>
      habs (List.mem_append_left _ hmem)
    have habs2 : SearchOp.abortCall ∉ t2 := fun hmem =>
      habs (List.mem_append_right _ (List.mem_cons_of_mem _ hmem))
    set s1 := (runOps limits (initialSState iv) t1).1 with hs1
    rw [runOps_append, runOps_cons]
    dsimp only
    by_cases hresp : s1.respondedBestmove = true
    · have hc1 : 1 ≤ (runOps limits (initialSState iv) t1).2 := by
        rcases runOps_responded_source limits _ t1 hresp with h | h | h
        · cases h
        · exact absurd h habs1
        · exact h
      have hc1' : (runOps limits (initialSState iv) t1).2 = 1 :=
        le_antisymm (runOps_le_one limits _ t1) hc1
      have hnoemit : (stepOp limits s1 (SearchOp.triggerStop e)).2 =
          false := stepOp_no_emit limits s1 _ hresp
      rw [hc1', hnoemit]
      simp only [Bool.false_eq_true, if_false, zero_add]
      rw [runOps_no_emit limits _ t2
        (stepOp_responded_mono limits s1 _ hresp)]
    · rw [Bool.not_eq_true] at hresp
      have hemit : (stepOp limits s1 (SearchOp.triggerStop e)).2 = true :=
        maybeTriggerStop_emits limits e s1 htp hresp hstop
      have hc1 : (runOps limits (initialSState iv) t1).2 = 0 := by
        by_contra hne
        have : 1 ≤ (runOps limits (initialSState iv) t1).2 :=
          Nat.one_le_iff_ne_zero.mpr hne
        have := runOps_pos_responded limits _ t1 this
        rw [← hs1, hresp] at this
        cases this
      rw [hc1, hemit, if_pos rfl]
      rw [runOps_no_emit limits _ t2
        (stepOp_emit_responded limits s1 _ hemit)]

/-- Witness for **C4** at concrete inputs: with a visits limit of 1,
the empty trace emits no event; aborting immediately suppresses the
event; one completed playout followed by a `MaybeTriggerStop` that
crosses the visits limit emits exactly one event. -/
theorem bestmove_event_unique_witness :
    (runOps
      { visits := 1, playouts := -1, time_ms := -1, infinite := false,
        searchmoves := [] } (initialSState 0) []).2 ≤ 1 ∧
    (runOps
      { visits := 1, playouts := -1, time_ms := -1, infinite := false,
        searchmoves := [] } (initialSState 0)
      ([] ++ SearchOp.abortCall :: [])).2 = 0 ∧
    (runOps
      { visits := 1, playouts := -1, time_ms := -1, infinite := false,
        searchmoves := [] } (initialSState 0)
      ([SearchOp.incPlayouts] ++ SearchOp.triggerStop 0 :: [])).2 = 1 :=
  ⟨(bestmove_event_unique
      { visits := 1, playouts := -1, time_ms := -1, infinite := false,
        searchmoves := [] } 0).1 [],
   (bestmove_event_unique
      { visits := 1, playouts := -1, time_ms := -1, infinite := false,
        searchmoves := [] } 0).2.1 [] [] (by decide),
   (bestmove_event_unique
      { visits := 1, playouts := -1, time_ms := -1, infinite := false,
        searchmoves := [] } 0).2.2 [SearchOp.incPlayouts] [] 0
      (by decide) (by decide) (by decide)⟩

theorem bumpNif_apply : ∀ (l : List (List Nat)) (f : List Nat → Nat)
    (p : List Nat), bumpNif l f p = f p + cnt l p := by
  intro l
  induction l with
  | nil => intro f p; rfl
  | cons q rest ih =>
      intro f p
      show bumpNif rest (fun x => if x = q then f x + 1 else f x) p =
        f p + ((if p = q then 1 else 0) + cnt rest p)
      rw [ih]
      by_cases hpq : p = q
      · rw [if_pos hpq, if_pos hpq]
        omega
      · rw [if_neg hpq, if_neg hpq]
        omega

theorem decNif_apply : ∀ (l : List (List Nat)) (f : List Nat → Nat)
    (p : List Nat), decNif l f p = f p - cnt l p := by
  intro l
  induction l with
  | nil => intro f p; rfl
  | cons q rest ih =>
      intro f p
      show decNif rest (fun x => if x = q then f x - 1 else f x) p =
        f p - ((if p = q then 1 else 0) + cnt rest p)
      rw [ih]
      by_cases hpq : p = q
      · rw [if_pos hpq, if_pos hpq]
        omega
      · rw [if_neg hpq, if_neg hpq]
        omega

theorem pendingSum_append (l1 l2 : List (List Nat × Bool)) (p : List Nat) :
    pendingSum (l1 ++ l2) p = pendingSum l1 p + pendingSum l2 p := by
  induction l1 with
  | nil => show pendingSum l2 p = 0 + pendingSum l2 p; omega
  | cons r rest ih =>
      show cnt (incNodes r.1 r.2) p + pendingSum (rest ++ l2) p = _
      rw [ih]
      show _ = cnt (incNodes r.1 r.2) p + pendingSum rest p + pendingSum l2 p
      omega

theorem cnt_eq_zero_of_not_mem {l : List (List Nat)} {p : List Nat}
    (h : p ∉ l) : cnt l p = 0 := by
  induction l with
  | nil => rfl
  | cons q rest ih =>
      show (if p = q then 1 else 0) + cnt rest p = 0
      rw [if_neg (fun hpq : p = q =>
          h (by rw [hpq]; exact List.mem_cons_self q rest)),
        ih (fun hm => h (List.mem_cons_of_mem q hm))]

theorem cnt_eq_one_of_mem_nodup {l : List (List Nat)} {p : List Nat}
    (hnd : l.Nodup) (h : p ∈ l) : cnt l p = 1 := by
  induction l with
  | nil => cases h
  | cons q rest ih =>
      show (if p = q then 1 else 0) + cnt rest p = 1
      rcases List.mem_cons.mp h with rfl | hm
      · rw [if_pos rfl,
          cnt_eq_zero_of_not_mem (List.nodup_cons.mp hnd).1]
      · have hpq : p ≠ q := fun hpq =>
          (List.nodup_cons.mp hnd).1 (hpq ▸ hm)
        rw [if_neg hpq, ih (List.nodup_cons.mp hnd).2 hm]

theorem prefixesOf_nodup (l : List Nat) : (prefixesOf l).Nodup := by
  induction l with
  | nil => exact List.nodup_singleton []
  | cons a rest ih =>
      show ([] :: (prefixesOf rest).map (fun q => a :: q)).Nodup
      rw [List.nodup_cons]
      constructor
      · intro hmem
        rcases List.mem_map.mp hmem with ⟨q, -, hq⟩
        cases hq
      · exact ih.map (fun x y hxy => by injection hxy)

theorem incNodes_nodup (path : List Nat) (b : Bool) :
    (incNodes path b).Nodup := by
  cases b with
  | false =>
      show (prefixesOf path).Nodup
      exact prefixesOf_nodup path
  | true =>
      show ((prefixesOf path).dropLast).Nodup
      exact (List.dropLast_sublist _).nodup (prefixesOf_nodup path)

theorem stepEvent_inv (t : TraceState) (ev : TreeEvent)
    (h : ∀ p, t.tree.nif p = pendingSum t.pending p) :
    ∀ p, (stepEvent t ev).tree.nif p =
      pendingSum (stepEvent t ev).pending p := by
  intro p
  cases ev with
  | pick fuel choices =>
      simp only [stepEvent]
      cases hp : pickPath t.tree fuel [] choices with
      | none => exact h p
      | some r =>
          dsimp only
          rw [bumpNif_apply, pendingSum_append, h p]
          show _ = pendingSum t.pending p +
            (cnt (incNodes r.1 r.2) p + pendingSum [] p)
          show _ = pendingSum t.pending p +
            (cnt (incNodes r.1 r.2) p + 0)
          omega
  | extend q k =>
      simp only [stepEvent]
      split
      · exact h p
      · exact h p
  | backup i =>
      simp only [stepEvent]
      cases hd : t.pending.drop i with
      | nil => exact h p
      | cons r rest =>
          dsimp only
          have hsplit : t.pending = t.pending.take i ++ r :: rest := by
            conv_lhs => rw [← List.take_append_drop i t.pending, hd]
          have hps : pendingSum t.pending p =
              pendingSum (t.pending.take i) p +
                (cnt (incNodes r.1 r.2) p + pendingSum rest p) := by
            conv_lhs => rw [hsplit]
            rw [pendingSum_append]
            rfl
          show decNif (incNodes r.1 r.2) t.tree.nif p = _
          rw [decNif_apply, pendingSum_append, h p, hps]
          omega

theorem runEvents_inv (events : List TreeEvent) :
    ∀ t : TraceState, (∀ p, t.tree.nif p = pendingSum t.pending p) →
    ∀ p, (runEvents t events).tree.nif p =
      pendingSum (runEvents t events).pending p := by
  induction events with
  | nil => intro t h p; exact h p
  | cons ev rest ih =>
      intro t h p
      exact ih (stepEvent t ev) (stepEvent_inv t ev h) p

/-- **C2.** Virtual-visit balance: (1) a completed
`PickNodeToExtend` increments `n_in_flight_` exactly once on each node
it selected (every node of the path for a playout, every strict
ancestor of the collision node for a collision) and nowhere else;
(2) `DoBackupUpdate` processing that record decrements exactly the same
nodes once each (`FinalizeScoreUpdate` on a playout,
`CancelScoreUpdate` on a collision); (3) consequently, over any
interleaving of picks, extensions and backups starting from a tree with
no in-flight visits, once all pending records are backed up every node
has `n_in_flight_ == 0`. -/
theorem virtual_visit_balance :
    (∀ (w : WState) (fuel : Nat) (choices : List Nat)
      (r : List Nat × Bool), pickPath w fuel [] choices = some r →
      (∀ p ∈ incNodes r.1 r.2,
        bumpNif (incNodes r.1 r.2) w.nif p = w.nif p + 1) ∧
      (∀ p, p ∉ incNodes r.1 r.2 →
        bumpNif (incNodes r.1 r.2) w.nif p = w.nif p)) ∧
    (∀ (w : WState) (r : List Nat × Bool),
      (∀ p ∈ incNodes r.1 r.2,
        (backupRecord w r).nif p = w.nif p - 1) ∧
      (∀ p, p ∉ incNodes r.1 r.2 → (backupRecord w r).nif p = w.nif p)) ∧
    (∀ (t0 : TraceState) (events : List TreeEvent),
      (∀ p, t0.tree.nif p = 0) → t0.pending = [] →
      (runEvents t0 events).pending = [] →
      ∀ p, (runEvents t0 events).tree.nif p = 0) := by
  refine ⟨?_, ?_, ?_⟩
  · intro w fuel choices r _
    constructor
    · intro p hp
      rw [bumpNif_apply,
        cnt_eq_one_of_mem_nodup (incNodes_nodup r.1 r.2) hp]
    · intro p hp
      rw [bumpNif_apply, cnt_eq_zero_of_not_mem hp, add_zero]
  · intro w r
    constructor
    · intro p hp
      show decNif (incNodes r.1 r.2) w.nif p = w.nif p - 1
      rw [decNif_apply,
        cnt_eq_one_of_mem_nodup (incNodes_nodup r.1 r.2) hp]
    · intro p hp
      show decNif (incNodes r.1 r.2) w.nif p = w.nif p
      rw [decNif_apply, cnt_eq_zero_of_not_mem hp, Nat.sub_zero]
  · intro t0 events h0 hp0 hdone p
    have hinv : ∀ q, t0.tree.nif q = pendingSum t0.pending q := by
      intro q
      rw [h0 q, hp0]
      rfl
    rw [runEvents_inv events t0 hinv p, hdone]
    rfl

/-- Witness for **C2** at a concrete run: a root with two children, one
pick descending to child 0 followed by its backup; afterwards no record
is pending and `n_in_flight_` is 0 at the root and at the picked
child. -/
theorem virtual_visit_balance_witness :
    (runEvents
      { tree := { arity := fun p => if p = [] then 2 else 0,
                  vis := fun _ => 0, nif := fun _ => 0 },
        pending := [] }
      [TreeEvent.pick 2 [0], TreeEvent.backup 0]).tree.nif [] = 0 ∧
    (runEvents
      { tree := { arity := fun p => if p = [] then 2 else 0,
                  vis := fun _ => 0, nif := fun _ => 0 },
        pending := [] }
      [TreeEvent.pick 2 [0], TreeEvent.backup 0]).tree.nif [0] = 0 :=
  ⟨virtual_visit_balance.2.2
      { tree := { arity := fun p => if p = [] then 2 else 0,
                  vis := fun _ => 0, nif := fun _ => 0 },
        pending := [] }
      [TreeEvent.pick 2 [0], TreeEvent.backup 0]
      (fun _ => rfl) rfl (by decide) [],
   virtual_visit_balance.2.2
      { tree := { arity := fun p => if p = [] then 2 else 0,
                  vis := fun _ => 0, nif := fun _ => 0 },
        pending := [] }
      [TreeEvent.pick 2 [0], TreeEvent.backup 0]
      (fun _ => rfl) rfl (by decide) [0]⟩

theorem map_getD_range (l : List Nat) :
    (List.range l.length).map (fun m => l.getD m 0) = l := by
  induction l with
  | nil => rfl
  | cons a rest ih =>
      rw [show (a :: rest).length = rest.length + 1 from rfl,
        List.range_succ_eq_map, List.map_cons, List.map_map]
      show a :: (List.range rest.length).map (fun m => rest.getD m 0) =
        a :: rest
      rw [ih]

theorem streamStart_inv (planes : List Nat) :
    StreamInv (streamStart planes) := by
  refine ⟨?_, ?_, ?_, ?_, ?_, ?_⟩
  · show planes.length = (List.range planes.length).length + 0
    rw [List.length_range, add_zero]
  · show (List.range planes.length ++ []).Nodup
    rw [List.append_nil]
    exact List.nodup_range _
  · intro j hj
    exact ⟨List.mem_range.mp hj, rfl⟩
  · intro pr hpr
    cases hpr
  · intro j hj _
    exact Or.inl (List.mem_range.mpr hj)
  · intro j lk h
    cases h

theorem streamStep_planes (s : StreamState) (e : StreamEvent) :
    (streamStep s e).planes = s.planes := by
  cases e with
  | grab k =>
      simp only [streamStep]
      split <;> rfl
  | recv i =>
      simp only [streamStep]
      split <;> rfl

theorem grab_preserve (s : StreamState) (n : Nat)
    (hn : n ≤ s.queue.length) (h : StreamInv s) :
    StreamInv { s with
                queue := s.queue.drop n,
                inflight := s.inflight ++
                  claimedTasks s.planes (s.queue.take n) } := by
  obtain ⟨h1, h2, h3, h4, h5, h6⟩ := h
  have hbl : (s.queue.take n).length = n := by
    rw [List.length_take]
    omega
  have hfst : (claimedTasks s.planes (s.queue.take n)).map Prod.fst =
      s.queue.take n := by
    show ((List.range (s.queue.take n).length).map _).map Prod.fst = _
    rw [List.map_map]
    exact map_getD_range (s.queue.take n)
  have hvalm : ∀ m, m < n →
      ((s.queue.take n).map (fun j => s.planes.getD j 0)).getD m 0 =
        s.planes.getD ((s.queue.take n).getD m 0) 0 := by
    intro m hm
    have hm1 : m < (s.queue.take n).length := by
      rw [hbl]; exact hm
    have hm2 : m <
        ((s.queue.take n).map (fun j => s.planes.getD j 0)).length := by
      rw [List.length_map]; exact hm1
    rw [List.getD_eq_getElem _ _ hm2, List.getD_eq_getElem _ _ hm1,
      List.getElem_map]
  have hmemb : ∀ m, m < n → (s.queue.take n).getD m 0 ∈ s.queue := by
    intro m hm
    have hm1 : m < (s.queue.take n).length := by
      rw [hbl]; exact hm
    rw [List.getD_eq_getElem _ _ hm1]
    exact List.take_subset n s.queue (List.getElem_mem hm1)
  have hcl : (claimedTasks s.planes (s.queue.take n)).length = n := by
    show ((List.range (s.queue.take n).length).map _).length = n
    rw [List.length_map, List.length_range, hbl]
  refine ⟨?_, ?_, ?_, ?_, ?_, ?_⟩
  · show s.remaining = (s.queue.drop n).length + _
    rw [List.length_drop, List.length_append, hcl]
    omega
  · show (s.queue.drop n ++ _).Nodup
    rw [List.map_append, hfst]
    have p1 : List.Perm
        ((s.queue.take n ++ s.queue.drop n) ++ s.inflight.map Prod.fst)
        (s.inflight.map Prod.fst ++ (s.queue.take n ++ s.queue.drop n)) :=
      List.perm_append_comm
    have p2 : List.Perm
        (s.inflight.map Prod.fst ++ (s.queue.take n ++ s.queue.drop n))
        (s.queue.drop n ++ (s.inflight.map Prod.fst ++ s.queue.take n)) := by
      rw [← List.append_assoc]
      exact List.perm_append_comm
    have hperm : List.Perm (s.queue ++ s.inflight.map Prod.fst)
        (s.queue.drop n ++ (s.inflight.map Prod.fst ++ s.queue.take n)) := by
      have e1 : s.queue ++ s.inflight.map Prod.fst =
          (s.queue.take n ++ s.queue.drop n) ++ s.inflight.map Prod.fst := by
        rw [List.take_append_drop]
      rw [e1]
      exact p1.trans p2
    exact hperm.nodup_iff.mp h2
  · intro j hj
    exact h3 j (List.drop_subset n s.queue hj)
  · intro pr hpr
    rcases List.mem_append.mp hpr with hpr | hpr
    · exact h4 pr hpr
    · simp only [claimedTasks] at hpr
      rcases List.mem_map.mp hpr with ⟨m, hm, rfl⟩
      have hmn : m < n := by
        rw [← hbl]; exact List.mem_range.mp hm
      obtain ⟨hlt, hnone⟩ := h3 _ (hmemb m hmn)
      exact ⟨hlt, hnone, hvalm m hmn⟩
  · intro j hj hjnone
    rcases h5 j hj hjnone with hjq | hjf
    · rw [← List.take_append_drop n s.queue] at hjq
      rcases List.mem_append.mp hjq with hjq | hjq
      · refine Or.inr ?_
        show j ∈ (s.inflight ++ _).map Prod.fst
        rw [List.map_append, hfst]
        exact List.mem_append_right _ hjq
      · exact Or.inl hjq
    · refine Or.inr ?_
      show j ∈ (s.inflight ++ _).map Prod.fst
      rw [List.map_append]
      exact List.mem_append_left _ hjf
  · intro j lk hjk
    exact h6 j lk hjk

theorem streamStep_inv (s : StreamState) (e : StreamEvent)
    (h : StreamInv s) : StreamInv (streamStep s e) := by
  cases e with
  | grab k =>
      simp only [streamStep]
      by_cases hq : s.queue = []
      · rw [if_pos hq]
        exact h
      · rw [if_neg hq]
        exact grab_preserve s (min k s.queue.length)
          (Nat.min_le_right _ _) h
  | recv i =>
      obtain ⟨h1, h2, h3, h4, h5, h6⟩ := h
      simp only [streamStep]
      cases hd : s.inflight.drop i with
      | nil => exact ⟨h1, h2, h3, h4, h5, h6⟩
      | cons pr rest =>
          obtain ⟨j, lk⟩ := pr
          dsimp only
          have hsplit : s.inflight =
              s.inflight.take i ++ (j, lk) :: rest := by
            conv_lhs => rw [← List.take_append_drop i s.inflight, hd]
          have hjmem : (j, lk) ∈ s.inflight := by
            rw [hsplit]
            exact List.mem_append_right _ (List.mem_cons_self _ _)
          obtain ⟨hjlt, hjnone, hjval⟩ := h4 _ hjmem
          have hjin : j ∈ s.inflight.map Prod.fst :=
            List.mem_map.mpr ⟨(j, lk), hjmem, rfl⟩
          have hdisj : s.queue.Disjoint (s.inflight.map Prod.fst) :=
            (List.nodup_append.mp h2).2.2
          have hfstsplit : s.inflight.map Prod.fst =
              (s.inflight.take i).map Prod.fst ++ j ::
                rest.map Prod.fst := by
            conv_lhs => rw [hsplit]
            rw [List.map_append]
            rfl
          have hfstnd : (s.inflight.map Prod.fst).Nodup :=
            (List.nodup_append.mp h2).2.1
          have hjnotrest : j ∉ (s.inflight.take i).map Prod.fst ++
              rest.map Prod.fst := by
            rw [hfstsplit] at hfstnd
            obtain ⟨-, hnd2, hdj⟩ := List.nodup_append.mp hfstnd
            intro hjmem2
            rcases List.mem_append.mp hjmem2 with hm | hm
            · exact hdj hm (List.mem_cons_self _ _)
            · exact (List.nodup_cons.mp hnd2).1 hm
          have hnewfst : (s.inflight.take i ++ rest).map Prod.fst =
              (s.inflight.take i).map Prod.fst ++ rest.map Prod.fst :=
            List.map_append _ _ _
          have hlen : s.inflight.length =
              (s.inflight.take i).length + (rest.length + 1) := by
            conv_lhs => rw [hsplit]
            rw [List.length_append]
            rfl
          refine ⟨?_, ?_, ?_, ?_, ?_, ?_⟩
          · show s.remaining - 1 =
              s.queue.length + (s.inflight.take i ++ rest).length
            rw [List.length_append]
            omega
          · show (s.queue ++ (s.inflight.take i ++ rest).map
              Prod.fst).Nodup
            refine h2.sublist ?_
            refine List.Sublist.append_left ?_ s.queue
            rw [hnewfst, hfstsplit]
            exact List.Sublist.append_left
              (List.sublist_cons_self j (rest.map Prod.fst)) _
          · intro q hq
            obtain ⟨hqlt, hqnone⟩ := h3 q hq
            refine ⟨hqlt, ?_⟩
            show (if q = j then some lk else s.peers q) = none
            rw [if_neg (fun hqj : q = j =>
              hdisj hq (by rw [hqj]; exact hjin)), hqnone]
          · intro pr hpr
            have hprmem : pr ∈ s.inflight := by
              rw [hsplit]
              rcases List.mem_append.mp hpr with hm | hm
              · exact List.mem_append_left _ hm
              · exact List.mem_append_right _
                  (List.mem_cons_of_mem _ hm)
            obtain ⟨hlt, hnone, hval⟩ := h4 pr hprmem
            refine ⟨hlt, ?_, hval⟩
            have hprj : pr.1 ≠ j := by
              intro hpj
              refine hjnotrest ?_
              rw [← hnewfst, ← hpj]
              exact List.mem_map.mpr ⟨pr, hpr, rfl⟩
            show (if pr.1 = j then some lk else s.peers pr.1) = none
            rw [if_neg hprj, hnone]
          · intro q hqlt hqnone
            dsimp only at hqlt hqnone ⊢
            have hqj : q ≠ j := by
              intro hqj
              rw [if_pos hqj] at hqnone
              cases hqnone
            rw [if_neg hqj] at hqnone
            rcases h5 q hqlt hqnone with hm | hm
            · exact Or.inl hm
            · refine Or.inr ?_
              rw [hnewfst]
              rw [hfstsplit] at hm
              rcases List.mem_append.mp hm with hm | hm
              · exact List.mem_append_left _ hm
              · rcases List.mem_cons.mp hm with hm | hm
                · exact absurd hm hqj
                · exact List.mem_append_right _ hm
          · intro q lk2 hq2
            dsimp only at hq2 ⊢
            by_cases hqj : q = j
            · rw [hqj] at hq2 ⊢
              rw [if_pos rfl] at hq2
              injection hq2 with hlk
              rw [← hlk]
              exact hjval
            · rw [if_neg hqj] at hq2
              exact h6 q lk2 hq2

theorem runStream_planes (events : List StreamEvent) :
    ∀ s, (runStream s events).planes = s.planes := by
  induction events with
  | nil => intro s; rfl
  | cons e rest ih =>
      intro s
      show (runStream (streamStep s e) rest).planes = s.planes
      rw [ih, streamStep_planes]

theorem runStream_inv (events : List StreamEvent) :
    ∀ s, StreamInv s → StreamInv (runStream s events) := by
  induction events with
  | nil => intro s h; exact h
  | cons e rest ih =>
      intro s h
      exact ih (streamStep s e) (streamStep_inv s e h)

/-- **C8.** The streaming backend preserves the blocking contract: over
any interleaving of `ThreadStep` claims and `Receive` deliveries after
`ComputeBlocking` has queued its batch, whenever the wait guard
`remaining_ == 0` holds — the only condition under which
`ComputeBlocking` returns — every input slot `i` of the batch holds a
result and `GetQVal(i)` / `GetPVal(i, m)` read the evaluation of
exactly the `i`-th added input (slot order is preserved). -/
theorem streamComputeBlocking_spec (planes : List Nat)
    (events : List StreamEvent)
    (hdone : (runStream (streamStart planes) events).remaining = 0) :
    ∀ i, i < planes.length →
      ∃ lk, (runStream (streamStart planes) events).peers i = some lk ∧
        (∀ evalQ : Nat → ℚ,
          (runStream (streamStart planes) events).getQ evalQ i =
            evalQ (planes.getD i 0)) ∧
        (∀ (evalP : Nat → Nat → ℚ) (m : Nat),
          (runStream (streamStart planes) events).getP evalP i m =
            evalP (planes.getD i 0) m) := by
  intro i hi
  obtain ⟨h1, h2, h3, h4, h5, h6⟩ :=
    runStream_inv events _ (streamStart_inv planes)
  have hpl : (runStream (streamStart planes) events).planes = planes :=
    runStream_planes events (streamStart planes)
  have hqlen : (runStream (streamStart planes) events).queue = [] := by
    rw [← List.length_eq_zero]
    omega
  have hflen : (runStream (streamStart planes) events).inflight = [] := by
    rw [← List.length_eq_zero]
    omega
  cases hpk : (runStream (streamStart planes) events).peers i with
  | none =>
      exfalso
      rcases h5 i (by rw [hpl]; exact hi) hpk with hm | hm
      · rw [hqlen] at hm
        cases hm
      · rw [hflen] at hm
        cases hm
  | some lk =>
      have hval : lk.cmp.inputs.getD lk.cmpIndex 0 = planes.getD i 0 := by
        rw [← hpl]
        exact h6 i lk hpk
      refine ⟨lk, rfl, ?_, ?_⟩
      · intro evalQ
        simp only [StreamState.getQ, hpk, SlotLookup.qVal, hval]
      · intro evalP m
        simp only [StreamState.getP, hpk, SlotLookup.pVal, hval]

/-- Witness for **C8** at a concrete run: two inputs, one batch grab,
two receives; after the guard holds, slot 0 reads input 5 and slot 1
reads input 9. -/
theorem streamComputeBlocking_spec_witness :
    (runStream (streamStart [5, 9])
      [StreamEvent.grab 32, StreamEvent.recv 0, StreamEvent.recv 0]).getQ
        (fun x => (x : ℚ)) 0 = 5 ∧
    (runStream (streamStart [5, 9])
      [StreamEvent.grab 32, StreamEvent.recv 0, StreamEvent.recv 0]).getP
        (fun x m => ((x * m : Nat) : ℚ)) 1 3 = 27 := by
  obtain ⟨lk0, -, hq0, -⟩ := streamComputeBlocking_spec [5, 9]
    [StreamEvent.grab 32, StreamEvent.recv 0, StreamEvent.recv 0]
    (by decide) 0 (by decide)
  obtain ⟨lk1, -, -, hp1⟩ := streamComputeBlocking_spec [5, 9]
    [StreamEvent.grab 32, StreamEvent.recv 0, StreamEvent.recv 0]
    (by decide) 1 (by decide)
  constructor
  · rw [hq0 (fun x => (x : ℚ))]
    norm_num
  · rw [hp1 (fun x m => ((x * m : Nat) : ℚ)) 3]
    norm_num

end Lc0
